import Mathlib

/-!
Verification of the three-word-address pattern matcher and HTTP helper of
the w3w-go-wrapper repository.

The three regular expressions of `w3w.go` (`regexFind3wa`,
`regexIsPossible3wa`, `regexDidYouMean`) are embedded as explicit
backtracking matchers over `List Char`.  Go's `regexp` package implements
leftmost-first (Perl-style) match semantics, which the split enumerators
below reproduce exactly: each enumerator returns, in backtracking
preference order, every way a pattern fragment can consume a prefix of the
input, and the first element of the enumeration is the match Go reports.

Character classes are sets of code points, written as predicates on `Nat`
and translated literally from the character-class items of the regex
source text.
-/

namespace W3W

/-- Code points of `~!@#$%^&*()+-_=[{]}\|'<>.,?/;:£§º©®`, the punctuation
run shared by every negated word class in the three regexes. -/
def punctCodes : List Nat :=
  [0x7e, 0x21, 0x40, 0x23, 0x24, 0x25, 0x5e, 0x26, 0x2a, 0x28, 0x29,
   0x2b, 0x2d, 0x5f, 0x3d, 0x5b, 0x7b, 0x5d, 0x7d, 0x5c, 0x7c, 0x27,
   0x3c, 0x3e, 0x2e, 0x2c, 0x3f, 0x2f, 0x3b, 0x3a, 0xa3, 0xa7, 0xba,
   0xa9, 0xae]

/-- `0-9` from the negated classes. -/
def digitCode (n : Nat) : Bool := 0x30 ≤ n && n ≤ 0x39

/-- Go regexp `\s`, which is ASCII-only: `[\t\n\f\r ]`. -/
def spaceCode (n : Nat) : Bool :=
  n = 0x09 || n = 0x0a || n = 0x0c || n = 0x0d || n = 0x20

/-- The word class `[^0-9\x60~!@#$%^&*()+\-_=\[\{\]}\\|'<>.,?/;:£§º©®\s]`
used for every word position of `regexIsPossible3wa` and `regexDidYouMean`
and for the first two word positions of `regexFind3wa`. -/
def wordCode (n : Nat) : Bool :=
  !(digitCode n || n = 0x60 || punctCodes.contains n || spaceCode n)

/-- The third word class of `regexFind3wa`,
`[^0-9x60~!@#$%^&*()+\-_=\[\{\]}\\|'<>.,?/;:£§º©®\s]`: the `\` before
`x60` is missing in the source, so the class excludes the letter `x` and
the digits `6` and `0` instead of the backtick. -/
def word3Code (n : Nat) : Bool :=
  !(digitCode n || n = 0x78 || n = 0x36 || n = 0x30 ||
    punctCodes.contains n || spaceCode n)

/-- Code points of the separator class `[.｡。･・︒។։။۔።।]` shared by
`regexFind3wa` and `regexIsPossible3wa`. -/
def sepCodes : List Nat :=
  [0x2e, 0xff61, 0x3002, 0xff65, 0x30fb, 0xfe12, 0x17d4, 0x589, 0x104b,
   0x6d4, 0x1362, 0x964]

/-- Membership in the strict separator class. -/
def sepCode (n : Nat) : Bool := sepCodes.contains n

/-- Code points of the loose separator class of `regexDidYouMean`
(`[.\x{FF61}\x{3002}\x{FF65}\x{30FB}\x{FE12}\x{17D4}\x{0964}\x{1362}\x{3002}:။^_۔։ ,\\/+'&\\:;|\x{3000}-]`),
with the trailing `-` a literal hyphen. -/
def looseSepCodes : List Nat :=
  [0x2e, 0xff61, 0x3002, 0xff65, 0x30fb, 0xfe12, 0x17d4, 0x964, 0x1362,
   0x3002, 0x3a, 0x104b, 0x5e, 0x5f, 0x6d4, 0x589, 0x20, 0x2c, 0x5c,
   0x2f, 0x2b, 0x27, 0x26, 0x5c, 0x3a, 0x3b, 0x7c, 0x3000, 0x2d]

/-- Membership in the loose separator class. -/
def looseCode (n : Nat) : Bool := looseSepCodes.contains n

/-- The sub-token joiner class `[\x{0020}\x{00A0}]` of the multi-token
alternative of `regexIsPossible3wa`. -/
def joinCode (n : Nat) : Bool := n = 0x20 || n = 0xa0

/-- The slash consumed by the `^/*` and `^/?` prefixes. -/
def slashCode (n : Nat) : Bool := n = 0x2f

/-! ### Backtracking split enumerators

A pattern fragment is modelled as a function `List Char → Splits` that
returns every `(consumed, remaining)` decomposition of its input, in
backtracking preference order. -/

/-- All ways a fragment can split an input. -/
abbrev Splits := List (List Char × List Char)

/-- A single character drawn from class `p` (a one-element character
class match). -/
def clsSplits (p : Nat → Bool) : List Char → Splits
  | [] => []
  | c :: r => if p c.toNat then [([c], r)] else []

/-- Concatenation: every split of `f` followed by every split of `g` on
the remainder, `f`-major — exactly the backtracking order. -/
def seqSplits (f g : List Char → Splits) (s : List Char) : Splits :=
  (f s).flatMap fun ur => (g ur.2).map fun vr => (ur.1 ++ vr.1, vr.2)

/-- Alternation, first alternative preferred. -/
def altSplits (f g : List Char → Splits) (s : List Char) : Splits :=
  f s ++ g s

/-- Greedy `(...)?`: presence preferred over absence. -/
def optSplits (f : List Char → Splits) (s : List Char) : Splits :=
  f s ++ [([], s)]

/-- Greedy `X{1,}` for a character class `X`: the nonempty prefixes of
the maximal run of class characters, longest first. -/
def plusSplits (p : Nat → Bool) (s : List Char) : Splits :=
  (List.range (s.takeWhile (fun c => p c.toNat)).length).map fun i =>
    ((s.takeWhile (fun c => p c.toNat)).take
        ((s.takeWhile (fun c => p c.toNat)).length - i),
     (s.takeWhile (fun c => p c.toNat)).drop
        ((s.takeWhile (fun c => p c.toNat)).length - i) ++
       s.dropWhile (fun c => p c.toNat))

/-- Greedy `X{0,}` for a character class `X`: all prefixes of the maximal
run, longest first (the empty prefix last). -/
def starSplits (p : Nat → Bool) (s : List Char) : Splits :=
  (List.range ((s.takeWhile (fun c => p c.toNat)).length + 1)).map fun i =>
    ((s.takeWhile (fun c => p c.toNat)).take
        ((s.takeWhile (fun c => p c.toNat)).length - i),
     (s.takeWhile (fun c => p c.toNat)).drop
        ((s.takeWhile (fun c => p c.toNat)).length - i) ++
       s.dropWhile (fun c => p c.toNat))

/-! ### regexIsPossible3wa -/

/-- The simple alternative `W{1,} SEP W{1,} SEP W{1,}` of
`regexIsPossible3wa`. -/
def alt1Splits : List Char → Splits :=
  seqSplits (plusSplits wordCode) (seqSplits (clsSplits sepCode)
    (seqSplits (plusSplits wordCode) (seqSplits (clsSplits sepCode)
      (plusSplits wordCode))))

/-- One sub-token group `[\x{0020}\x{00A0}]W+` of the multi-token
alternative. -/
def subTokSplits : List Char → Splits :=
  seqSplits (clsSplits joinCode) (plusSplits wordCode)

/-- Greedy `([\x{0020}\x{00A0}]W+){1,3}`. -/
def rep13Splits : List Char → Splits :=
  seqSplits subTokSplits (optSplits (seqSplits subTokSplits
    (optSplits subTokSplits)))

/-- The multi-token alternative
`W{1,}(JW+){1,3} SEP W{1,}(JW+){1,3} SEP W{1,}(JW+){1,3}` of
`regexIsPossible3wa`. -/
def alt2Splits : List Char → Splits :=
  seqSplits (plusSplits wordCode) (seqSplits rep13Splits
    (seqSplits (clsSplits sepCode) (seqSplits (plusSplits wordCode)
      (seqSplits rep13Splits (seqSplits (clsSplits sepCode)
        (seqSplits (plusSplits wordCode) rep13Splits))))))

/-- The whole of `regexIsPossible3wa` after the `^` anchor:
`/*(?:alt1|alt2)` (the `$` anchor is the empty-remainder test below). -/
def possSplits : List Char → Splits :=
  seqSplits (starSplits slashCode) (altSplits alt1Splits alt2Splits)

/-- `IsPossible3wa` on a character list: the anchored pattern admits a
split that consumes the entire input. -/
def isPossible3waL (s : List Char) : Bool :=
  (possSplits s).any fun ur => ur.2.isEmpty

/-- `service.IsPossible3wa`: `regexIsPossible3wa.MatchString input`. -/
def IsPossible3wa (input : String) : Bool :=
  isPossible3waL input.data

/-! ### regexDidYouMean -/

/-- Loose separator run `L{1,2}`. -/
def rep12Splits : List Char → Splits :=
  seqSplits (clsSplits looseCode) (optSplits (clsSplits looseCode))

/-- The whole of `regexDidYouMean` after the `^` anchor:
`/?W{1,}L{1,2}W{1,}L{1,2}W{1,}`. -/
def dymSplits : List Char → Splits :=
  seqSplits (optSplits (clsSplits slashCode))
    (seqSplits (plusSplits wordCode) (seqSplits rep12Splits
      (seqSplits (plusSplits wordCode) (seqSplits rep12Splits
        (plusSplits wordCode)))))

/-- `service.DidYouMean`: `regexDidYouMean.MatchString input`. -/
def DidYouMean (input : String) : Bool :=
  (dymSplits input.data).any fun ur => ur.2.isEmpty

/-! ### regexFind3wa and FindPossible3wa -/

/-- A structured match of `regexFind3wa`: first word, first separator,
second word, second separator, third word. -/
structure Find3waMatch where
  w1 : List Char
  s1 : Char
  w2 : List Char
  s2 : Char
  w3 : List Char
deriving DecidableEq, Repr

/-- The text of a structured match. -/
def Find3waMatch.toList (m : Find3waMatch) : List Char :=
  m.w1 ++ m.s1 :: m.w2 ++ m.s2 :: m.w3

/-- One character of class `p` together with the remainder. -/
def charSplits (p : Nat → Bool) : List Char → List (Char × List Char)
  | [] => []
  | c :: r => if p c.toNat then [(c, r)] else []

/-- All matches of `regexFind3wa` starting at the head of the input, in
backtracking preference order, paired with the unconsumed remainder. -/
def find3waSplits (s : List Char) : List (Find3waMatch × List Char) :=
  (plusSplits wordCode s).flatMap fun u1 =>
    (charSplits sepCode u1.2).flatMap fun c1 =>
      (plusSplits wordCode c1.2).flatMap fun u2 =>
        (charSplits sepCode u2.2).flatMap fun c2 =>
          (plusSplits word3Code c2.2).map fun u3 =>
            (⟨u1.1, c1.1, u2.1, c2.1, u3.1⟩, u3.2)

/-- The leftmost-first match of `regexFind3wa` in the input, with the
remainder after it, scanning start positions left to right. -/
def findFirst3wa : List Char → Option (Find3waMatch × List Char)
  | [] => none
  | c :: r =>
    match find3waSplits (c :: r) with
    | mr :: _ => some mr
    | [] => findFirst3wa r

/-- Repeated scanning, as `FindAllString` does: take the leftmost match,
continue after its end.  The fuel only bounds the recursion; every match
is at least one character long, so `s.length + 1` is always enough. -/
def findAll3waAux : Nat → List Char → List Find3waMatch
  | 0, _ => []
  | fuel + 1, s =>
    match findFirst3wa s with
    | none => []
    | some (m, rest) => m :: findAll3waAux fuel rest

/-- All non-overlapping leftmost-first matches of `regexFind3wa`. -/
def findAll3wa (s : List Char) : List Find3waMatch :=
  findAll3waAux (s.length + 1) s

/-- `service.FindPossible3wa`: `regexFind3wa.FindAllString(input, -1)`. -/
def FindPossible3wa (input : String) : List String :=
  (findAll3wa input.data).map fun m => String.mk m.toList

/-! ### IsValid3wa -/

/-- One autosuggest suggestion (`v3.AutoSuggestSuggestion`), restricted
to the `Words` field that `IsValid3wa` reads. -/
structure AutoSuggestSuggestion where
  words : String
deriving DecidableEq, Repr

/-- `v3.AutoSuggestResponse`, restricted to the `Suggestions` field. -/
structure AutoSuggestResponse where
  suggestions : List AutoSuggestSuggestion
deriving DecidableEq, Repr

/-- `service.IsValid3wa`, with the remote `AutoSuggest` call abstracted
as an oracle returning the Go pair `(resp *AutoSuggestResponse, err
error)`: `none` in the first component is a nil response pointer, `some`
in the second a non-nil error.  The result is `none` when the Go code
panics (field access through a nil response pointer), otherwise `some`
of the returned boolean.  The body mirrors the source: the suggestion
check sits inside the `err != nil` branch, and every fall-through path
returns `false`. -/
def IsValid3wa
    (autoSuggest : String → Option AutoSuggestResponse × Option String)
    (input : String) : Option Bool :=
  if IsPossible3wa input then
    match autoSuggest input with
    | (resp, some _) =>
      match resp with
      | none => none
      | some r =>
        match r.suggestions with
        | [] => some false
        | sug :: _ => some (sug.words == input)
    | (_, none) => some false
  else some false

/-! ### core.MakeGetRequest -/

/-- The part of an `http.Response` that `MakeGetRequest` consumes. -/
structure HttpResponse (β : Type) where
  statusCode : Nat
  body : β

/-- `core.MakeGetRequest`, with each effectful step abstracted as its
outcome: `parseURL` is `url.Parse(baseURL)`, `newRequest` is
`http.NewRequestWithContext`, `doRequest` is `client.Do`, `readAll` is
`io.ReadAll(resp.Body)`, `unmarshal` is `json.Unmarshal` producing the
populated response value, and `getError` is `response.GetError()`.  The
result is the returned Go error, `none` for nil. -/
def MakeGetRequest {ε β γ ρ : Type}
    (parseURL : Except ε Unit) (newRequest : Except ε Unit)
    (doRequest : Except ε (HttpResponse β))
    (readAll : β → Except ε γ) (unmarshal : γ → Except ε ρ)
    (getError : ρ → ε) : Option ε :=
  match parseURL with
  | .error e => some e
  | .ok _ =>
    match newRequest with
    | .error e => some e
    | .ok _ =>
      match doRequest with
      | .error e => some e
      | .ok resp =>
        match readAll resp.body with
        | .error e => some e
        | .ok bodyBytes =>
          match unmarshal bodyBytes with
          | .error e => some e
          | .ok r =>
            if resp.statusCode ≠ 200 then some (getError r) else none

/-- An enumerator is concatenation-sound when every split reassembles to
its input. -/
def ConcSound (f : List Char → Splits) : Prop :=
  ∀ s u r, (u, r) ∈ f s → u ++ r = s

/-- Structural well-formedness of a `regexFind3wa` match: the words are
nonempty runs of their character classes and the separators are
separator characters. -/
def Sound3wa (m : Find3waMatch) : Prop :=
  m.w1 ≠ [] ∧ (∀ c ∈ m.w1, wordCode c.toNat = true) ∧
  sepCode m.s1.toNat = true ∧
  m.w2 ≠ [] ∧ (∀ c ∈ m.w2, wordCode c.toNat = true) ∧
  sepCode m.s2.toNat = true ∧
  m.w3 ≠ [] ∧ (∀ c ∈ m.w3, word3Code c.toNat = true)

/-- The matches of the repeated scan occur in the input, in order and
without overlap: the input splits into alternating gaps and matches. -/
inductive ScatteredIn : List (List Char) → List Char → Prop where
  | nil (s : List Char) : ScatteredIn [] s
  | cons (g m : List Char) {ms : List (List Char)} {rest : List Char}
      (h : ScatteredIn ms rest) : ScatteredIn (m :: ms) (g ++ m ++ rest)

end W3W

namespace W3W

/-! ### Soundness and completeness of the split enumerators -/

/-- `takeWhile` walks through a fully-satisfying prefix. -/
theorem takeWhile_append_all {p : Char → Bool} :
    ∀ {u : List Char} (r : List Char), (∀ c ∈ u, p c = true) →
      (u ++ r).takeWhile p = u ++ r.takeWhile p := by
  intro u
  induction u with
  | nil => intro r _; simp
  | cons a t ih =>
    intro r h
    have ha : p a = true := h a (List.mem_cons_self _ _)
    simp [List.takeWhile_cons, ha,
      ih r (fun c hc => h c (List.mem_cons_of_mem _ hc))]

/-- `dropWhile` discards a fully-satisfying prefix. -/
theorem dropWhile_append_all {p : Char → Bool} :
    ∀ {u : List Char} (r : List Char), (∀ c ∈ u, p c = true) →
      (u ++ r).dropWhile p = r.dropWhile p := by
  intro u
  induction u with
  | nil => intro r _; simp
  | cons a t ih =>
    intro r h
    have ha : p a = true := h a (List.mem_cons_self _ _)
    simp [List.dropWhile_cons, ha,
      ih r (fun c hc => h c (List.mem_cons_of_mem _ hc))]

/-- Every split produced by `plusSplits p` is a nonempty class run
followed by the remainder. -/
theorem plusSplits_sound {p : Nat → Bool} {s u r : List Char}
    (h : (u, r) ∈ plusSplits p s) :
    u ≠ [] ∧ (∀ c ∈ u, p c.toNat = true) ∧ u ++ r = s := by
  unfold plusSplits at h
  rcases List.mem_map.mp h with ⟨i, hi, heq⟩
  rw [List.mem_range] at hi
  cases heq
  refine ⟨?_, ?_, ?_⟩
  · intro hnil
    have := congrArg List.length hnil
    simp [List.length_take] at this
    omega
  · intro c hc
    have hmem : c ∈ s.takeWhile (fun c => p c.toNat) :=
      List.take_subset _ _ hc
    exact List.mem_takeWhile_imp (p := fun d : Char => p d.toNat) hmem
  · rw [← List.append_assoc, List.take_append_drop,
      List.takeWhile_append_dropWhile]

/-- Any nonempty class run can be produced by `plusSplits p`. -/
theorem plusSplits_complete {p : Nat → Bool} {u : List Char}
    (r : List Char) (hne : u ≠ [])
    (hall : ∀ c ∈ u, p c.toNat = true) :
    (u, r) ∈ plusSplits p (u ++ r) := by
  unfold plusSplits
  rw [takeWhile_append_all r hall, dropWhile_append_all r hall]
  refine List.mem_map.mpr
    ⟨(r.takeWhile fun c => p c.toNat).length, ?_, ?_⟩
  · rw [List.mem_range, List.length_append]
    have := List.length_pos.mpr hne
    omega
  · have hk : (u ++ r.takeWhile fun c => p c.toNat).length -
        (r.takeWhile fun c => p c.toNat).length = u.length := by
      rw [List.length_append]; omega
    rw [hk, List.take_left, List.drop_left, List.takeWhile_append_dropWhile]

/-- Every split produced by `starSplits p` is a class run followed by the
remainder. -/
theorem starSplits_sound {p : Nat → Bool} {s u r : List Char}
    (h : (u, r) ∈ starSplits p s) :
    (∀ c ∈ u, p c.toNat = true) ∧ u ++ r = s := by
  unfold starSplits at h
  rcases List.mem_map.mp h with ⟨i, _, heq⟩
  cases heq
  refine ⟨?_, ?_⟩
  · intro c hc
    have hmem : c ∈ s.takeWhile (fun c => p c.toNat) :=
      List.take_subset _ _ hc
    exact List.mem_takeWhile_imp (p := fun d : Char => p d.toNat) hmem
  · rw [← List.append_assoc, List.take_append_drop,
      List.takeWhile_append_dropWhile]

/-- `starSplits` always offers the empty match. -/
theorem starSplits_eps_mem (p : Nat → Bool) (s : List Char) :
    ([], s) ∈ starSplits p s := by
  unfold starSplits
  refine List.mem_map.mpr
    ⟨(s.takeWhile fun c => p c.toNat).length, ?_, ?_⟩
  · rw [List.mem_range]; omega
  · rw [Nat.sub_self, List.take_zero, List.drop_zero,
      List.takeWhile_append_dropWhile]

/-- Characterisation of `clsSplits`. -/
theorem clsSplits_sound {p : Nat → Bool} {s u r : List Char}
    (h : (u, r) ∈ clsSplits p s) :
    ∃ c, u = [c] ∧ p c.toNat = true ∧ s = c :: r := by
  match s with
  | [] => simp [clsSplits] at h
  | c :: t =>
    by_cases hc : p c.toNat = true
    · simp [clsSplits, hc] at h
      exact ⟨c, h.1, hc, by rw [h.2]⟩
    · simp [clsSplits, hc] at h

/-- `clsSplits` accepts any single class character. -/
theorem clsSplits_complete {p : Nat → Bool} {c : Char}
    (r : List Char) (hc : p c.toNat = true) :
    ([c], r) ∈ clsSplits p (c :: r) := by
  simp [clsSplits, hc]

/-- Characterisation of `charSplits`. -/
theorem charSplits_sound {p : Nat → Bool} {s : List Char} {c : Char}
    {r : List Char} (h : (c, r) ∈ charSplits p s) :
    p c.toNat = true ∧ s = c :: r := by
  match s with
  | [] => simp [charSplits] at h
  | a :: t =>
    by_cases ha : p a.toNat = true
    · simp [charSplits, ha] at h
      exact ⟨h.1 ▸ ha, by rw [h.1, h.2]⟩
    · simp [charSplits, ha] at h

/-- Membership in a sequenced enumerator. -/
theorem mem_seqSplits {f g : List Char → Splits} {s u r : List Char} :
    (u, r) ∈ seqSplits f g s ↔
      ∃ u1 r1 u2, (u1, r1) ∈ f s ∧ (u2, r) ∈ g r1 ∧ u = u1 ++ u2 := by
  constructor
  · intro h
    rcases List.mem_flatMap.mp h with ⟨⟨u1, r1⟩, h1, h2⟩
    rcases List.mem_map.mp h2 with ⟨⟨u2, r2⟩, h3, heq⟩
    cases heq
    exact ⟨u1, r1, u2, h1, h3, rfl⟩
  · rintro ⟨u1, r1, u2, h1, h2, rfl⟩
    exact List.mem_flatMap.mpr
      ⟨(u1, r1), h1, List.mem_map.mpr ⟨(u2, r), h2, rfl⟩⟩

/-- Membership in an alternation. -/
theorem mem_altSplits {f g : List Char → Splits} {s : List Char}
    {ur : List Char × List Char} :
    ur ∈ altSplits f g s ↔ ur ∈ f s ∨ ur ∈ g s := List.mem_append

/-- Membership in an optional fragment. -/
theorem mem_optSplits {f : List Char → Splits} {s u r : List Char} :
    (u, r) ∈ optSplits f s ↔ (u, r) ∈ f s ∨ (u = [] ∧ r = s) := by
  unfold optSplits
  rw [List.mem_append]
  simp [Prod.ext_iff]

/-! ### Concatenation soundness -/

theorem concSound_cls (p : Nat → Bool) : ConcSound (clsSplits p) := by
  intro s u r h
  rcases clsSplits_sound h with ⟨c, rfl, _, rfl⟩
  rfl

theorem concSound_plus (p : Nat → Bool) : ConcSound (plusSplits p) :=
  fun _ _ _ h => (plusSplits_sound h).2.2

theorem concSound_star (p : Nat → Bool) : ConcSound (starSplits p) :=
  fun _ _ _ h => (starSplits_sound h).2

theorem concSound_seq {f g : List Char → Splits}
    (hf : ConcSound f) (hg : ConcSound g) : ConcSound (seqSplits f g) := by
  intro s u r h
  rcases mem_seqSplits.mp h with ⟨u1, r1, u2, h1, h2, rfl⟩
  rw [List.append_assoc, hg _ _ _ h2, hf _ _ _ h1]

theorem concSound_alt {f g : List Char → Splits}
    (hf : ConcSound f) (hg : ConcSound g) : ConcSound (altSplits f g) := by
  intro s u r h
  rcases mem_altSplits.mp h with h | h
  · exact hf _ _ _ h
  · exact hg _ _ _ h

theorem concSound_opt {f : List Char → Splits}
    (hf : ConcSound f) : ConcSound (optSplits f) := by
  intro s u r h
  rcases mem_optSplits.mp h with h | ⟨rfl, rfl⟩
  · exact hf _ _ _ h
  · rfl

theorem concSound_alt1 : ConcSound alt1Splits :=
  concSound_seq (concSound_plus _) (concSound_seq (concSound_cls _)
    (concSound_seq (concSound_plus _) (concSound_seq (concSound_cls _)
      (concSound_plus _))))

theorem concSound_subTok : ConcSound subTokSplits :=
  concSound_seq (concSound_cls _) (concSound_plus _)

theorem concSound_rep13 : ConcSound rep13Splits :=
  concSound_seq concSound_subTok (concSound_opt
    (concSound_seq concSound_subTok (concSound_opt concSound_subTok)))

theorem concSound_alt2 : ConcSound alt2Splits :=
  concSound_seq (concSound_plus _) (concSound_seq concSound_rep13
    (concSound_seq (concSound_cls _) (concSound_seq (concSound_plus _)
      (concSound_seq concSound_rep13 (concSound_seq (concSound_cls _)
        (concSound_seq (concSound_plus _) concSound_rep13))))))

/-! ### Separator containment for the anchored pattern -/

/-- Every split of the simple alternative contains a separator. -/
theorem alt1Splits_hasSep {s u r : List Char}
    (h : (u, r) ∈ alt1Splits s) : ∃ c ∈ u, sepCode c.toNat = true := by
  rcases mem_seqSplits.mp h with ⟨u1, r1, u2, _, h2, rfl⟩
  rcases mem_seqSplits.mp h2 with ⟨uc, r2, u3, hc, _, rfl⟩
  rcases clsSplits_sound hc with ⟨c, rfl, hcs, _⟩
  exact ⟨c, by simp, hcs⟩

/-- Every split of the multi-token alternative contains a separator. -/
theorem alt2Splits_hasSep {s u r : List Char}
    (h : (u, r) ∈ alt2Splits s) : ∃ c ∈ u, sepCode c.toNat = true := by
  rcases mem_seqSplits.mp h with ⟨u1, r1, u2, _, h2, rfl⟩
  rcases mem_seqSplits.mp h2 with ⟨u2a, r2, u2b, _, h3, rfl⟩
  rcases mem_seqSplits.mp h3 with ⟨uc, r3, u4, hc, _, rfl⟩
  rcases clsSplits_sound hc with ⟨c, rfl, hcs, _⟩
  exact ⟨c, by simp, hcs⟩

/-- A full match of `regexIsPossible3wa` forces a separator character in
the input. -/
theorem isPossible3waL_hasSep {s : List Char}
    (h : isPossible3waL s = true) : ∃ c ∈ s, sepCode c.toNat = true := by
  unfold isPossible3waL at h
  rcases List.any_eq_true.mp h with ⟨⟨u, r⟩, hmem, _⟩
  rcases mem_seqSplits.mp hmem with ⟨u0, r1, u1, h0, h1, rfl⟩
  have hr1 : ∀ c ∈ u1, c ∈ s := by
    intro c hc
    have hcat0 : u0 ++ r1 = s := (starSplits_sound h0).2
    have hcat1 : u1 ++ r = r1 :=
      (concSound_alt concSound_alt1 concSound_alt2) _ _ _ h1
    rw [← hcat0, ← hcat1]
    simp [hc]
  rcases mem_altSplits.mp h1 with h1 | h1
  · rcases alt1Splits_hasSep h1 with ⟨c, hcu, hcs⟩
    exact ⟨c, hr1 c hcu, hcs⟩
  · rcases alt2Splits_hasSep h1 with ⟨c, hcu, hcs⟩
    exact ⟨c, hr1 c hcu, hcs⟩

/-! ### Soundness of the scan -/

/-- Every element of `find3waSplits` is a well-formed match consuming a
prefix of the input. -/
theorem find3waSplits_sound {s : List Char} {m : Find3waMatch}
    {r : List Char} (h : (m, r) ∈ find3waSplits s) :
    Sound3wa m ∧ m.toList ++ r = s := by
  unfold find3waSplits at h
  rcases List.mem_flatMap.mp h with ⟨⟨u1, r1⟩, h1, h⟩
  rcases List.mem_flatMap.mp h with ⟨⟨c1, r2⟩, hc1, h⟩
  rcases List.mem_flatMap.mp h with ⟨⟨u2, r3⟩, h2, h⟩
  rcases List.mem_flatMap.mp h with ⟨⟨c2, r4⟩, hc2, h⟩
  rcases List.mem_map.mp h with ⟨⟨u3, r5⟩, h3, heq⟩
  cases heq
  obtain ⟨hne1, hall1, hcat1⟩ := plusSplits_sound h1
  obtain ⟨hsep1, hr1⟩ := charSplits_sound hc1
  obtain ⟨hne2, hall2, hcat2⟩ := plusSplits_sound h2
  obtain ⟨hsep2, hr3⟩ := charSplits_sound hc2
  obtain ⟨hne3, hall3, hcat3⟩ := plusSplits_sound h3
  refine ⟨⟨hne1, hall1, hsep1, hne2, hall2, hsep2, hne3, hall3⟩, ?_⟩
  dsimp only at hr1 hcat2 hr3 hcat3 ⊢
  subst hr1 hr3
  rw [← hcat1, ← hcat2, ← hcat3]
  simp [Find3waMatch.toList]

/-- The leftmost-first scan returns a well-formed match preceded by a
skipped prefix. -/
theorem findFirst3wa_sound :
    ∀ {s : List Char} {m : Find3waMatch} {r : List Char},
      findFirst3wa s = some (m, r) →
      ∃ g, Sound3wa m ∧ s = g ++ m.toList ++ r := by
  intro s
  induction s with
  | nil => intro m r h; simp [findFirst3wa] at h
  | cons c t ih =>
    intro m r h
    unfold findFirst3wa at h
    cases hsp : find3waSplits (c :: t) with
    | cons mr tl =>
      rw [hsp] at h
      simp only [Option.some.injEq] at h
      have hm : (m, r) ∈ find3waSplits (c :: t) := by
        rw [hsp, h]
        exact List.mem_cons_self _ _
      obtain ⟨hs, hcat⟩ := find3waSplits_sound hm
      exact ⟨[], hs, by simp [← hcat]⟩
    | nil =>
      rw [hsp] at h
      obtain ⟨g, hs, hcat⟩ := ih h
      exact ⟨c :: g, hs, by simp [hcat]⟩

/-- Without separator characters the scan finds nothing. -/
theorem findFirst3wa_of_no_sep :
    ∀ {s : List Char}, (∀ c ∈ s, sepCode c.toNat = false) →
      findFirst3wa s = none := by
  intro s
  induction s with
  | nil => intro _; rfl
  | cons c t ih =>
    intro hno
    unfold findFirst3wa
    cases hsp : find3waSplits (c :: t) with
    | nil => exact ih fun x hx => hno x (List.mem_cons_of_mem _ hx)
    | cons mr tl =>
      exfalso
      have hm : (mr.1, mr.2) ∈ find3waSplits (c :: t) := by
        rw [hsp]
        exact List.mem_cons_self _ _
      obtain ⟨hs, hcat⟩ := find3waSplits_sound hm
      have hsep : sepCode mr.1.s1.toNat = true := hs.2.2.1
      have hmem : mr.1.s1 ∈ c :: t := by
        rw [← hcat]
        simp [Find3waMatch.toList]
      rw [hno _ hmem] at hsep
      exact Bool.noConfusion hsep

/-- Every match the repeated scan reports is well-formed. -/
theorem findAll3waAux_sound :
    ∀ {fuel : Nat} {s : List Char} {m : Find3waMatch},
      m ∈ findAll3waAux fuel s → Sound3wa m := by
  intro fuel
  induction fuel with
  | zero => intro s m h; simp [findAll3waAux] at h
  | succ n ih =>
    intro s m h
    unfold findAll3waAux at h
    cases hf : findFirst3wa s with
    | none => rw [hf] at h; simp at h
    | some mr =>
      obtain ⟨mm, rest⟩ := mr
      rw [hf] at h
      rcases List.mem_cons.mp h with rfl | h
      · exact (findFirst3wa_sound hf).choose_spec.1
      · exact ih h

theorem findAll3waAux_scattered :
    ∀ (fuel : Nat) (s : List Char),
      ScatteredIn ((findAll3waAux fuel s).map Find3waMatch.toList) s := by
  intro fuel
  induction fuel with
  | zero => intro s; exact ScatteredIn.nil s
  | succ n ih =>
    intro s
    unfold findAll3waAux
    cases hf : findFirst3wa s with
    | none => exact ScatteredIn.nil s
    | some mr =>
      obtain ⟨mm, rest⟩ := mr
      obtain ⟨g, _, hcat⟩ := findFirst3wa_sound hf
      rw [hcat]
      exact ScatteredIn.cons g mm.toList (ih rest)

/-! ### Relations between the word classes -/

/-- A word character of the shared class is never the backtick. -/
theorem wordCode_ne_backtick {n : Nat} (h : wordCode n = true) :
    n ≠ 0x60 := by
  intro heq
  rw [heq] at h
  exact absurd h (by decide)

/-- A character of the third find class is never the letter `x`. -/
theorem word3Code_ne_x {n : Nat} (h : word3Code n = true) :
    n ≠ 0x78 := by
  intro heq
  rw [heq] at h
  exact absurd h (by decide)

/-- A character of the third find class that is not the backtick lies in
the shared word class. -/
theorem word3Code_to_wordCode {n : Nat} (h : word3Code n = true)
    (hb : n ≠ 0x60) : wordCode n = true := by
  unfold word3Code at h
  unfold wordCode
  rw [Bool.not_eq_true'] at h ⊢
  simp only [Bool.or_eq_false_iff] at h ⊢
  obtain ⟨⟨⟨⟨⟨hdig, _⟩, _⟩, _⟩, hcont⟩, hspace⟩ := h
  exact ⟨⟨⟨hdig, decide_eq_false hb⟩, hcont⟩, hspace⟩

/-! ### Building a full match of the anchored pattern -/

/-- A `word sep word sep word` string fully matches
`regexIsPossible3wa` through its simple alternative. -/
theorem isPossible3waL_of_parts {w1 w2 w3 : List Char} {c1 c2 : Char}
    (h1 : w1 ≠ []) (a1 : ∀ c ∈ w1, wordCode c.toNat = true)
    (hs1 : sepCode c1.toNat = true)
    (h2 : w2 ≠ []) (a2 : ∀ c ∈ w2, wordCode c.toNat = true)
    (hs2 : sepCode c2.toNat = true)
    (h3 : w3 ≠ []) (a3 : ∀ c ∈ w3, wordCode c.toNat = true) :
    isPossible3waL (w1 ++ c1 :: (w2 ++ c2 :: w3)) = true := by
  unfold isPossible3waL
  apply List.any_eq_true.mpr
  refine ⟨(w1 ++ c1 :: (w2 ++ c2 :: w3), []), ?_, rfl⟩
  unfold possSplits
  apply mem_seqSplits.mpr
  refine ⟨[], w1 ++ c1 :: (w2 ++ c2 :: w3), w1 ++ c1 :: (w2 ++ c2 :: w3),
    starSplits_eps_mem _ _, ?_, by simp⟩
  apply mem_altSplits.mpr
  left
  unfold alt1Splits
  apply mem_seqSplits.mpr
  refine ⟨w1, c1 :: (w2 ++ c2 :: w3), c1 :: (w2 ++ c2 :: w3),
    plusSplits_complete (c1 :: (w2 ++ c2 :: w3)) h1 a1, ?_, by simp⟩
  apply mem_seqSplits.mpr
  refine ⟨[c1], w2 ++ c2 :: w3, w2 ++ c2 :: w3,
    clsSplits_complete (w2 ++ c2 :: w3) hs1, ?_, by simp⟩
  apply mem_seqSplits.mpr
  refine ⟨w2, c2 :: w3, c2 :: w3, plusSplits_complete (c2 :: w3) h2 a2,
    ?_, by simp⟩
  apply mem_seqSplits.mpr
  refine ⟨[c2], w3, w3, clsSplits_complete w3 hs2, ?_, by simp⟩
  have hw3 := plusSplits_complete (p := wordCode) [] h3 a3
  rwa [List.append_nil] at hw3

/-! ### The claims -/

set_option maxRecDepth 10000

/-- C1: the claim says `IsValid3wa` returns true exactly when the input
passes `IsPossible3wa`, the AutoSuggest call completes with at least one
suggestion, and the top suggestion's `Words` equals the input.  The code
tests `err != nil` instead of `err == nil` before reading the
suggestions, so on a successful call with an exactly-matching top
suggestion it still returns false, and on a failed call (nil response,
non-nil error) it dereferences the nil response.  The claim describes the
documented intent; the code contradicts it. -/
theorem isValid3wa_success_yields_false :
    IsPossible3wa "filled.count.soap" = true ∧
    IsValid3wa (fun _ => (some ⟨[⟨"filled.count.soap"⟩]⟩, none))
      "filled.count.soap" = some false ∧
    IsValid3wa (fun _ => (none, some "connection failed"))
      "filled.count.soap" = none := by decide

/-- C2 counterexample: the multi-token alternative of
`regexIsPossible3wa` requires `{1,3}` additional sub-tokens in every
word position, so `"new york.some place.here"`, whose third position is
a single token, is rejected — the claim says it is accepted. -/
theorem isPossible3wa_multiToken_cex :
    IsPossible3wa "new york.some place.here" = false := by decide

/-- C2 amended: each of the three word positions of the multi-token
variant must contain between 1 and 3 additional space- or
no-break-space-separated sub-tokens; `"new york.some place.here now"`
(every position multi-token) is accepted while
`"new york.some place.here"` (third position single-token) is not. -/
theorem isPossible3wa_multiToken_amended :
    IsPossible3wa "new york.some place.here now" = true ∧
    IsPossible3wa "new york.some place.here" = false := by decide

/-- C3 counterexample: the scan's third word class admits the backtick
(the unescaped `x60`), which the full-match rule's word class excludes,
so the scan result `"a.b.`"` does not satisfy `IsPossible3wa`. -/
theorem findPossible3wa_roundTrip_cex :
    FindPossible3wa "a.b.`" = ["a.b.`"] ∧
    IsPossible3wa "a.b.`" = false := by decide

/-- C3 amended: every substring returned by `FindPossible3wa` that
contains no backtick character (U+0060) itself satisfies
`IsPossible3wa`. -/
theorem findPossible3wa_roundTrip (s m : String)
    (hm : m ∈ FindPossible3wa s)
    (hb : ∀ c ∈ m.data, c.toNat ≠ 0x60) :
    IsPossible3wa m = true := by
  unfold FindPossible3wa at hm
  rcases List.mem_map.mp hm with ⟨mm, hmm, rfl⟩
  have hmm' : mm ∈ findAll3waAux (s.data.length + 1) s.data := hmm
  obtain ⟨h1, a1, hs1, h2, a2, hs2, h3, a3⟩ := findAll3waAux_sound hmm'
  have hb3 : ∀ c ∈ mm.w3, c.toNat ≠ 0x60 := by
    intro c hc
    apply hb
    show c ∈ mm.toList
    simp [Find3waMatch.toList, hc]
  have a3w : ∀ c ∈ mm.w3, wordCode c.toNat = true :=
    fun c hc => word3Code_to_wordCode (a3 c hc) (hb3 c hc)
  have heq : mm.toList = mm.w1 ++ mm.s1 :: (mm.w2 ++ mm.s2 :: mm.w3) := by
    simp [Find3waMatch.toList]
  show isPossible3waL mm.toList = true
  rw [heq]
  exact isPossible3waL_of_parts h1 a1 hs1 h2 a2 hs2 h3 a3w

/-- Witness for C3 amended: the round trip at a concrete input. -/
theorem findPossible3wa_roundTrip_witness : IsPossible3wa "a.b.c" = true :=
  findPossible3wa_roundTrip "a.b.c" "a.b.c" (by decide) (by decide)

/-- C4: the scan on the spec's example returns exactly the two full
addresses, in order; in general the reported matches occur in the input
left to right without overlap (the input decomposes into alternating
gaps and matches). -/
theorem findPossible3wa_scan_example_and_order :
    FindPossible3wa "Can be found at filled.count.soap and at ///test.fake.words but not at test.fake. or test.fake"
      = ["filled.count.soap", "test.fake.words"] ∧
    ∀ s : String, ScatteredIn ((FindPossible3wa s).map String.data) s.data := by
  constructor
  · decide
  · intro s
    unfold FindPossible3wa
    rw [List.map_map]
    exact findAll3waAux_scattered _ _

/-- C5: the four anchor examples of the full-match rule. -/
theorem isPossible3wa_examples :
    IsPossible3wa "filled.count.soap" = true ∧
    IsPossible3wa "/filled.count.soap" = true ∧
    IsPossible3wa "filled.count." = false ∧
    IsPossible3wa "filled.count.soap.extra" = false := by decide

/-- C6 counterexample: the ideographic full stop U+3002 is in the
separator class and also in every word class, and a full match can carry
it inside a word, so the separator set is not disjoint from the word
character set. -/
theorem sep_word_disjoint_cex :
    sepCode 0x3002 = true ∧ wordCode 0x3002 = true ∧
    word3Code 0x3002 = true ∧ IsPossible3wa "a。b.c.d" = true := by decide

/-- C6 amended: among the separator characters only the ASCII period is
excluded from word tokens; every non-Latin separator mark is itself a
word character of all the word classes. -/
theorem sep_word_overlap (c : Char) (h : sepCode c.toNat = true) :
    (c.toNat ≠ 0x2e → wordCode c.toNat = true ∧ word3Code c.toNat = true) ∧
    wordCode 0x2e = false ∧ word3Code 0x2e = false := by
  have hmem : c.toNat ∈ sepCodes := by simpa [sepCode] using h
  have key : ∀ n ∈ sepCodes, n ≠ 0x2e →
      wordCode n = true ∧ word3Code n = true := by decide
  exact ⟨fun hne => key _ hmem hne, by decide, by decide⟩

/-- Witness for C6 amended at U+3002. -/
theorem sep_word_overlap_witness :
    wordCode (Char.ofNat 0x3002).toNat = true ∧
    word3Code (Char.ofNat 0x3002).toNat = true :=
  (sep_word_overlap (Char.ofNat 0x3002) (by decide)).1 (by decide)

/-- C7: the hyphen is a loose separator of `regexDidYouMean` but not a
strict separator of `regexIsPossible3wa`. -/
theorem didYouMean_loose_hyphen :
    DidYouMean "filled-count-fake" = true ∧
    IsPossible3wa "filled-count-fake" = false := by decide

/-- C8: a string without separator-class characters yields no scan
matches and no full match. -/
theorem no_sep_no_match (s : String)
    (h : ∀ c ∈ s.data, sepCode c.toNat = false) :
    FindPossible3wa s = [] ∧ IsPossible3wa s = false := by
  have hf : findFirst3wa s.data = none := findFirst3wa_of_no_sep h
  constructor
  · unfold FindPossible3wa findAll3wa
    simp [findAll3waAux, hf]
  · cases hp : IsPossible3wa s with
    | false => rfl
    | true =>
      exfalso
      obtain ⟨c, hcs, hsep⟩ := isPossible3waL_hasSep hp
      rw [h c hcs] at hsep
      exact Bool.noConfusion hsep

/-- Witness for C8 at concrete separator-free inputs. -/
theorem no_sep_no_match_witness :
    (FindPossible3wa "hello world" = [] ∧
      IsPossible3wa "hello world" = false) ∧
    FindPossible3wa "" = [] ∧ IsPossible3wa "" = false :=
  ⟨no_sep_no_match "hello world" (by decide),
   no_sep_no_match "" (by decide)⟩

/-- C9: in every reported scan match the third word never contains the
letter `x` and the first two words never contain a backtick, while the
third word may contain a backtick and the first two may contain `x`:
`"filled.count.sixty"` scans to `"filled.count.si"`, `"x.x.a"` is
reported whole, and so is `"j.k.`"` with a backtick third word. -/
theorem find3wa_word_class_asymmetry (s : List Char) (m : Find3waMatch)
    (hm : m ∈ findAll3wa s) :
    ((∀ c ∈ m.w3, c.toNat ≠ 0x78) ∧ (∀ c ∈ m.w1, c.toNat ≠ 0x60) ∧
      (∀ c ∈ m.w2, c.toNat ≠ 0x60)) ∧
    FindPossible3wa "filled.count.sixty" = ["filled.count.si"] ∧
    FindPossible3wa "x.x.a" = ["x.x.a"] ∧
    FindPossible3wa "j.k.`" = ["j.k.`"] := by
  have hm' : m ∈ findAll3waAux (s.length + 1) s := hm
  obtain ⟨_, a1, _, _, a2, _, _, a3⟩ := findAll3waAux_sound hm'
  refine ⟨⟨?_, ?_, ?_⟩, by decide, by decide, by decide⟩
  · exact fun c hc => word3Code_ne_x (a3 c hc)
  · exact fun c hc => wordCode_ne_backtick (a1 c hc)
  · exact fun c hc => wordCode_ne_backtick (a2 c hc)

/-- Witness for C9 at a concrete scan match. -/
theorem find3wa_word_class_asymmetry_witness :
    FindPossible3wa "filled.count.sixty" = ["filled.count.si"] :=
  (find3wa_word_class_asymmetry "a.b.c".data
    ⟨['a'], '.', ['b'], '.', ['c']⟩ (by decide)).2.1

/-- C10: `MakeGetRequest` returns nil exactly when every step succeeds
and the status code equals 200; any other status code (other 2xx
included) yields the structured error of the unmarshalled response,
provided unmarshalling succeeded; an unmarshalling failure yields the
JSON parse error regardless of status code. -/
theorem makeGetRequest_error_contract {ε β γ ρ : Type}
    (parseURL newRequest : Except ε Unit)
    (doRequest : Except ε (HttpResponse β)) (readAll : β → Except ε γ)
    (unmarshal : γ → Except ε ρ) (getError : ρ → ε) :
    (MakeGetRequest parseURL newRequest doRequest readAll unmarshal
        getError = none ↔
      ∃ resp bodyBytes r, parseURL = .ok () ∧ newRequest = .ok () ∧
        doRequest = .ok resp ∧ readAll resp.body = .ok bodyBytes ∧
        unmarshal bodyBytes = .ok r ∧ resp.statusCode = 200) ∧
    (∀ resp bodyBytes r, parseURL = .ok () → newRequest = .ok () →
      doRequest = .ok resp → readAll resp.body = .ok bodyBytes →
      unmarshal bodyBytes = .ok r → resp.statusCode ≠ 200 →
      MakeGetRequest parseURL newRequest doRequest readAll unmarshal
        getError = some (getError r)) ∧
    (∀ resp bodyBytes e, parseURL = .ok () → newRequest = .ok () →
      doRequest = .ok resp → readAll resp.body = .ok bodyBytes →
      unmarshal bodyBytes = .error e →
      MakeGetRequest parseURL newRequest doRequest readAll unmarshal
        getError = some e) := by
  refine ⟨⟨?_, ?_⟩, ?_, ?_⟩
  · intro h
    cases hp : parseURL with
    | error e => simp [MakeGetRequest, hp] at h
    | ok u =>
      cases u
      cases hn : newRequest with
      | error e => simp [MakeGetRequest, hp, hn] at h
      | ok u =>
        cases u
        cases hd : doRequest with
        | error e => simp [MakeGetRequest, hp, hn, hd] at h
        | ok resp =>
          cases hr : readAll resp.body with
          | error e => simp [MakeGetRequest, hp, hn, hd, hr] at h
          | ok bodyBytes =>
            cases hu : unmarshal bodyBytes with
            | error e => simp [MakeGetRequest, hp, hn, hd, hr, hu] at h
            | ok r =>
              by_cases hst : resp.statusCode = 200
              · exact ⟨resp, bodyBytes, r, rfl, rfl, rfl, hr, hu, hst⟩
              · simp [MakeGetRequest, hp, hn, hd, hr, hu, hst] at h
  · rintro ⟨resp, bodyBytes, r, hp, hn, hd, hr, hu, hst⟩
    subst hp
    subst hn
    simp [MakeGetRequest, hd, hr, hu, hst]
  · intro resp bodyBytes r hp hn hd hr hu hst
    subst hp
    subst hn
    simp [MakeGetRequest, hd, hr, hu, hst]
  · intro resp bodyBytes e hp hn hd hr hu
    subst hp
    subst hn
    simp [MakeGetRequest, hd, hr, hu]

/-- Witness for C10: a 201 response with a decodable body yields the
structured error. -/
theorem makeGetRequest_error_contract_witness :
    MakeGetRequest (ε := Nat) (β := Nat) (γ := Nat) (ρ := Nat)
      (Except.ok ()) (Except.ok ()) (Except.ok ⟨201, 5⟩)
      (fun b => Except.ok b) (fun g => Except.ok (g + 2))
      (fun r => r * 10) = some 70 :=
  (makeGetRequest_error_contract (Except.ok ()) (Except.ok ())
      (Except.ok ⟨201, 5⟩) (fun b => Except.ok b)
      (fun g => Except.ok (g + 2)) (fun r => r * 10)).2.1
    ⟨201, 5⟩ 5 7 rfl rfl rfl rfl rfl (by decide)
